import Mathlib

/-!
Verification development for the sync_one repository: a shallow embedding of
src/gitignore.hpp (the ordered ignore-rule matcher) and src/sync.cpp (the
mirror engine), together with theorems settling the behavioural claims made
about them.

Paths and rule lines are modelled as lists of characters; directory trees as
association lists from relative path to entry, listed in traversal order
(parents before children, as the recursive directory iterator produces them).
Filesystem exceptions that the code does not catch are modelled by an abort
flag; the one exception the code does catch (copy_file failure inside
syncFile) is driven by an oracle telling which copies succeed.
-/

namespace SyncOne

/-- Character-list strings, the model of std::string. -/
abbrev Str := List Char

/-- Shorthand turning a string literal into its character list. -/
def s (x : String) : Str := x.toList

/-- Metadata of a regular file: size in bytes and modification time. -/
structure FileMeta where
  size : Nat
  mtime : Nat
deriving DecidableEq, Repr

/-- A directory entry kind as observed by a traversal. -/
inductive Entry
  | dir
  | file (meta : FileMeta)
deriving DecidableEq, Repr

/-- A directory tree: association list from relative path to entry, in
traversal order. -/
abbrev Tree := List (Str × Entry)

/-- One reported action of the mirror engine: a COPY line, a DEL F line, a
DEL D line, or an ERROR line from a failed copy. -/
inductive Action
  | copy (p : Str)
  | delF (p : Str)
  | delD (p : Str)
  | error
deriving DecidableEq, Repr

/-! ## The ignore matcher, from src/gitignore.hpp -/

/-- A stored rule: the flag recorded from the leading bang marker, and the
pattern text. -/
abbrev Rule := Bool × Str

/-- The characters stripped from line ends: space, carriage return, newline,
tab. -/
def wsChar (c : Char) : Bool := c = ' ' || c = '\r' || c = '\n' || c = '\t'

/-- Transliterates r.erase(r.find_last_not_of(" \r\n\t") + 1): strip trailing
whitespace. -/
def rstrip (x : Str) : Str := (x.reverse.dropWhile wsChar).reverse

/-- Transliterates GitIgnore::addRule. -/
def addRule (rs : List Rule) (line : Str) : List Rule :=
  match rstrip line with
  | [] => rs
  | c :: cs =>
    if c = '#' then rs
    else if c = '!' then rs ++ [(true, cs)]
    else rs ++ [(false, c :: cs)]

/-- Transliterates the GitIgnore constructor: fold addRule over the raw
lines. -/
def buildRules (lines : List Str) : List Rule := lines.foldl addRule []

/-- Transliterates GitIgnore::match: the pattern occurs somewhere in the path
as a contiguous substring. -/
def matchPat (path pattern : Str) : Bool := decide (pattern <:+: path)

/-- Transliterates the std::replace call: backslashes become forward
slashes. -/
def normalizeSep (p : Str) : Str := p.map fun c => if c = '\\' then '/' else c

/-- Transliterates GitIgnore::isIgnored: normalize separators, then fold the
rules in construction order. -/
def isIgnored (rs : List Rule) (path : Str) : Bool :=
  let p := normalizeSep path
  rs.foldl (fun ignored rule =>
    if rule.1 && matchPat p rule.2 then true
    else if !rule.1 && matchPat p rule.2 then false
    else ignored) false

/-! ## Tree primitives -/

/-- Look up the entry stored at a relative path. -/
def find? : Tree → Str → Option Entry
  | [], _ => none
  | e :: t, q => if e.1 = q then some e.2 else find? t q

/-- Remove the entry stored at a relative path (fs remove of one name). -/
def eraseP (t : Tree) (k : Str) : Tree := t.filter fun e => decide (e.1 ≠ k)

/-- Overwrite or create the entry at a relative path. -/
def insertP (t : Tree) (k : Str) (v : Entry) : Tree := eraseP t k ++ [(k, v)]

/-- The chain of directory paths that create_directories touches for a path:
every slash-bounded proper prefix followed by the path itself. -/
def dirPrefixes (p : Str) : List Str :=
  ((List.range p.length).filterMap fun i =>
    if p.get? i = some '/' then some (p.take i) else none) ++ [p]

/-- The chain create_directories touches for the parent of a path. -/
def parentPrefixes (p : Str) : List Str := (dirPrefixes p).dropLast

/-- Transliterates create_directories on a chain of paths: create each
missing one as a directory; an existing regular file in the chain raises, so
the error value models that exception. -/
def mkdirs : List Str → Tree → Except Unit Tree
  | [], t => Except.ok t
  | q :: qs, t =>
    match find? t q with
    | none => mkdirs qs (t ++ [(q, Entry.dir)])
    | some Entry.dir => mkdirs qs t
    | some (Entry.file _) => Except.error ()

/-! ## The mirror engine, from src/sync.cpp -/

/-- The loop body of collectRemovals: skip ignored entries, skip entries
whose source counterpart exists, record the rest. -/
def collectStep (rs : List Rule) (src : Tree) (acc : List Str) (e : Str × Entry) :
    List Str :=
  if isIgnored rs e.1 then acc
  else if (find? src e.1).isSome then acc
  else acc ++ [e.1]

/-- Transliterates collectRemovals. Paths are recorded relative to the
destination root; the source records absolute paths, but every absolute path
shares the destination-root prefix, so relative recording preserves both
membership and the later string sort order. -/
def collectRemovals (rs : List Rule) (src : Tree) (dst : Tree) : List Str :=
  dst.foldl (collectStep rs src) []

/-- Lexicographic strict comparison of character lists, as the std::string
less-than order underlying the sort comparator. -/
def strLt : Str → Str → Bool
  | [], [] => false
  | [], _ :: _ => true
  | _ :: _, [] => false
  | a :: as, b :: bs => if a < b then true else if b < a then false else strLt as bs

/-- Insert into a descending-sorted list, keeping it descending. -/
def insertDesc (x : Str) : List Str → List Str
  | [] => [x]
  | y :: ys => if strLt x y then y :: insertDesc x ys else x :: y :: ys

/-- Models the std sort call with the string greater-than comparator:
descending lexicographic order. -/
def insSortDesc : List Str → List Str
  | [] => []
  | x :: xs => insertDesc x (insSortDesc xs)

/-- Does the tree still hold an entry strictly below path p. -/
def hasChildIn (t : Tree) (p : Str) : Bool := t.any fun e => decide ((p ++ ['/']) <+: e.1)

/-- Transliterates one removal iteration: fs remove on a non-empty directory
raises an uncaught exception, modelled by the abort flag; remove of a file,
an empty directory, or a missing name succeeds and the DEL line is
printed. -/
def removeStep (t : Tree) (p : Str) : List Action × Tree × Bool :=
  match find? t p with
  | some Entry.dir =>
    if hasChildIn t p then ([], t, true)
    else ([Action.delD p], eraseP t p, false)
  | some (Entry.file _) => ([Action.delF p], eraseP t p, false)
  | none => ([Action.delF p], t, false)

/-- The deletion loop of mirror: execute removals in list order, stopping at
an uncaught exception. -/
def delPass : List Str → Tree → List Action → List Action × Tree × Bool
  | [], t, acts => (acts, t, false)
  | p :: ps, t, acts =>
    let r := removeStep t p
    if r.2.2 then (acts ++ r.1, r.2.1, true)
    else delPass ps r.2.1 (acts ++ r.1)

/-- The staleness test of mirror: destination absent means copy; a
destination directory gives the modification-time comparison against a
directory time (modelled 0) and, when times tie, file_size raises; a
destination file compares modification time then size. -/
def stale (t : Tree) (rel : Str) (m : FileMeta) : Except Unit Bool :=
  match find? t rel with
  | none => Except.ok true
  | some Entry.dir => if m.mtime ≠ 0 then Except.ok true else Except.error ()
  | some (Entry.file dm) =>
    Except.ok (decide (m.mtime ≠ dm.mtime) || decide (m.size ≠ dm.size))

/-- Transliterates syncFile: attempt the copy, print COPY on success or catch
the exception and print ERROR on failure, leaving the destination entry as it
was. -/
def syncFile (ok : Bool) (rel : Str) (m : FileMeta) (t : Tree) : List Action × Tree :=
  if ok then ([Action.copy rel], insertP t rel (Entry.file m))
  else ([Action.error], t)

/-- One iteration of the copy pass loop body in mirror, for the entry at
relative path rel. After syncFile returns, the code sets the destination
modification time unconditionally; on a missing destination that call raises
an uncaught exception, modelled by the abort flag. -/
def copyStep (rs : List Rule) (ok : Str → Bool) (t : Tree) (rel : Str) (ent : Entry) :
    List Action × Tree × Bool :=
  if isIgnored rs rel then ([], t, false)
  else
    match ent with
    | Entry.dir =>
      match mkdirs (dirPrefixes rel) t with
      | Except.error _ => ([], t, true)
      | Except.ok t1 => ([], t1, false)
    | Entry.file m =>
      match stale t rel m with
      | Except.error _ => ([], t, true)
      | Except.ok false => ([], t, false)
      | Except.ok true =>
        match mkdirs (parentPrefixes rel) t with
        | Except.error _ => ([], t, true)
        | Except.ok t1 =>
          let r := syncFile (ok rel) rel m t1
          match find? r.2 rel with
          | some (Entry.file dm) =>
            (r.1, insertP r.2 rel (Entry.file ⟨dm.size, m.mtime⟩), false)
          | some Entry.dir => (r.1, r.2, false)
          | none => (r.1, r.2, true)

/-- The copy loop of mirror over the source traversal, stopping at an
uncaught exception. -/
def copyPass (rs : List Rule) (ok : Str → Bool) :
    List (Str × Entry) → Tree → List Action → List Action × Tree × Bool
  | [], t, acts => (acts, t, false)
  | e :: es, t, acts =>
    let r := copyStep rs ok t e.1 e.2
    if r.2.2 then (acts ++ r.1, r.2.1, true)
    else copyPass rs ok es r.2.1 (acts ++ r.1)

/-- Transliterates mirror: deletion pass over the destination, then copy pass
over the source. The result carries the printed action lines, the final
destination tree, and the abort flag of an uncaught exception. -/
def mirror (rs : List Rule) (src dst : Tree) (ok : Str → Bool) :
    List Action × Tree × Bool :=
  let rl := insSortDesc (collectRemovals rs src dst)
  let r1 := delPass rl dst []
  if r1.2.2 then r1
  else copyPass rs ok src r1.2.1 r1.1

/-! ## The entry point, from main in src/sync.cpp -/

/-- One line of console output of the program. -/
inductive Console
  | usageMsg
  | act (a : Action)
  | finishedMsg
deriving DecidableEq, Repr

/-- Transliterates main. args are the command line arguments after the
program name; haveRulesFile tells whether the named rules file exists and
ruleLines gives its lines. The result is the exit status and the console
output; an uncaught exception terminates with a nonzero status and no
completion line. -/
def runMain (args : List Str) (haveRulesFile : Bool) (ruleLines : List Str)
    (src dst : Tree) (ok : Str → Bool) : Nat × List Console :=
  if args.length < 2 then (1, [Console.usageMsg])
  else
    let rules := if args.length = 3 && haveRulesFile then ruleLines else []
    let rs := buildRules rules
    let r := mirror rs src dst ok
    if r.2.2 then (1, r.1.map Console.act)
    else (0, r.1.map Console.act ++ [Console.finishedMsg])

/-! ## Well-formedness predicates for trees produced by a filesystem walk -/

/-- Keys of a tree are pairwise distinct, as paths in one filesystem tree
are. -/
abbrev NodupKeys (t : Tree) : Prop := (t.map Prod.fst).Nodup

/-- Every slash-bounded proper prefix of a recorded path is itself recorded
as a directory, as a recursive traversal guarantees. -/
abbrev AncestorClosed (src : Tree) : Prop :=
  ∀ e ∈ src, ∀ q ∈ dirPrefixes e.1, q = e.1 ∨ (q, Entry.dir) ∈ src

/-! ## Helper lemmas on trailing-whitespace stripping -/

theorem dropWhile_append_all {p : Char → Bool} :
    ∀ {l1 l2 : Str}, (∀ c ∈ l1, p c = true) →
      List.dropWhile p (l1 ++ l2) = List.dropWhile p l2
  | [], _, _ => rfl
  | c :: cs, l2, h => by
    have hc : p c = true := h c (by simp)
    simp only [List.cons_append, List.dropWhile_cons, hc, if_true]
    exact dropWhile_append_all fun d hd => h d (by simp [hd])

theorem rstrip_append_ws (x ws : Str) (h : ∀ c ∈ ws, wsChar c = true) :
    rstrip (x ++ ws) = rstrip x := by
  unfold rstrip
  rw [List.reverse_append, dropWhile_append_all fun c hc => h c (List.mem_reverse.mp hc)]

/-! ## Claim C1 -/

/-- Claim C1 evaluated on the code: the single non-negated rule tmp does NOT
exclude the paths a/tmp/file.txt and tmpfile.txt (the matcher returns false
on both), while the negated rule bang-tmp DOES exclude a/tmp/file.txt. The
fold in isIgnored sets the flag to true for a matching rule whose stored
first component is true, but that component records precisely the lines that
began with the bang marker, so the two rule directions act inverted relative
to the claim. -/
theorem c1_matcher_inverted_eval :
    isIgnored (buildRules [s "tmp"]) (s "a/tmp/file.txt") = false ∧
    isIgnored (buildRules [s "tmp"]) (s "tmpfile.txt") = false ∧
    isIgnored (buildRules [s "!tmp"]) (s "a/tmp/file.txt") = true := by
  refine ⟨?_, ?_, ?_⟩ <;> decide

/-! ## Claim C2 -/

/-- Claim C2 evaluated on the code: with the single non-negated rule tmp, a
destination subtree tmp, tmp/f absent from the source is deleted by mirror,
although the claim requires a path matched by an active non-negated exclusion
rule to be left untouched. The inverted matcher of C1 reports these paths as
not ignored, so the deletion pass removes them. -/
theorem c2_excluded_path_deleted_eval :
    mirror (buildRules [s "tmp"]) []
        [(s "tmp", Entry.dir), (s "tmp/f", Entry.file ⟨1, 1⟩)] (fun _ => true)
      = ([Action.delF (s "tmp/f"), Action.delD (s "tmp")], [], false) := by
  decide

/-! ## Claim C5 -/

/-- Claim C5 evaluated on the code: source holds files f and g, destination
is empty, and the copy of f fails (copy_file raises; syncFile catches it and
prints the ERROR line). The subsequent unguarded last_write_time call on the
still-missing destination file raises an uncaught exception, aborting the
whole run: g, which needed a copy, is never processed and no further action
is emitted. -/
theorem c5_failed_copy_aborts_run_eval :
    mirror [] [(s "f", Entry.file ⟨1, 1⟩), (s "g", Entry.file ⟨1, 1⟩)] []
        (fun p => decide (p ≠ s "f"))
      = ([Action.error], [], true) := by
  decide

/-! ## Claim C6 -/

/-- Claim C6 evaluated on the code: destination file f has the same size as
its source counterpart but an older modification time, and the copy fails.
The unguarded last_write_time call after the failed copy still stamps the
destination with the source modification time, so the next invocation sees
identical size and time and performs no copy: the stale file is never
retried, contradicting the claim. -/
theorem c6_failed_copy_stamps_mtime_eval :
    (mirror [] [(s "f", Entry.file ⟨5, 9⟩)] [(s "f", Entry.file ⟨5, 3⟩)] (fun _ => false)
      = ([Action.error], [(s "f", Entry.file ⟨5, 9⟩)], false)) ∧
    (mirror [] [(s "f", Entry.file ⟨5, 9⟩)] [(s "f", Entry.file ⟨5, 9⟩)] (fun _ => true)
      = ([], [(s "f", Entry.file ⟨5, 9⟩)], false)) := by
  exact ⟨by decide, by decide⟩

/-! ## Claim C8 -/

/-- Claim C8: rule-line parsing. Trailing whitespace is stripped before
classification; a line empty after stripping or starting with the hash
character yields no rule; a line starting with the bang marker yields a
negated rule over the remainder; any other surviving line yields a
non-negated rule over the full stripped text; and a discarded line leaves the
rules built from the other lines unchanged, so kept rules keep their relative
order. -/
theorem c8_parse_rules (acc : List Rule) (line : Str) :
    (∀ ws, (∀ c ∈ ws, wsChar c = true) → addRule acc (line ++ ws) = addRule acc line) ∧
    (rstrip line = [] → addRule acc line = acc) ∧
    (∀ cs, rstrip line = '#' :: cs → addRule acc line = acc) ∧
    (∀ cs, rstrip line = '!' :: cs → addRule acc line = acc ++ [(true, cs)]) ∧
    (∀ c cs, rstrip line = c :: cs → c ≠ '#' → c ≠ '!' →
      addRule acc line = acc ++ [(false, c :: cs)]) ∧
    (∀ pre post, (∀ a : List Rule, addRule a line = a) →
      buildRules (pre ++ line :: post) = buildRules (pre ++ post)) := by
  refine ⟨?_, ?_, ?_, ?_, ?_, ?_⟩
  · intro ws hws
    unfold addRule
    rw [rstrip_append_ws line ws hws]
  · intro h; unfold addRule; rw [h]
  · intro cs h; unfold addRule; rw [h]; simp
  · intro cs h; unfold addRule; rw [h]; simp
  · intro c cs h hh hb; unfold addRule; rw [h]; simp [hh, hb]
  · intro pre post h
    unfold buildRules
    rw [List.foldl_append, List.foldl_append]
    simp only [List.foldl_cons, h]

/-- Witness for C8 at concrete inputs: the line "x " parses like "x", the
stripped line "x" yields the non-negated rule x, the line "!y" yields the
negated rule y, the line "#c" is dropped, and dropping the blank line " "
between two kept lines preserves their rules and order. -/
theorem c8_parse_rules_witness :
    addRule [] (s "x ") = addRule [] (s "x") ∧
    addRule [] (s "x") = [(false, s "x")] ∧
    addRule [] (s "!y") = [(true, s "y")] ∧
    addRule [] (s "#c") = [] ∧
    buildRules [s "a", s " ", s "!b"] = buildRules [s "a", s "!b"] := by
  refine ⟨?_, ?_, ?_, ?_, ?_⟩
  · exact (c8_parse_rules [] (s "x")).1 [' '] (by decide)
  · exact (c8_parse_rules [] (s "x")).2.2.2.2.1 'x' [] (by decide) (by decide) (by decide)
  · exact (c8_parse_rules [] (s "!y")).2.2.2.1 (s "y") (by decide)
  · exact (c8_parse_rules [] (s "#c")).2.2.1 (s "c") (by decide)
  · exact (c8_parse_rules [] (s " ")).2.2.2.2.2 [s "a"] [s "!b"]
      (fun a => rfl)

/-! ## Claim C10 -/

/-- Claim C10: a rule line that is exactly the bang marker, optionally with
trailing whitespace, is kept as a rule whose stored flag is true and whose
pattern is empty, and the empty pattern occurs as a substring of every
string, so this rule matches every queried path. -/
theorem c10_bare_bang_rule (acc : List Rule) (ws : Str)
    (hws : ∀ c ∈ ws, wsChar c = true) :
    addRule acc ('!' :: ws) = acc ++ [(true, [])] ∧
    ∀ p : Str, matchPat p [] = true := by
  constructor
  · have h1 : rstrip ('!' :: ws) = ['!'] := by
      have := rstrip_append_ws ['!'] ws hws
      simpa using this
    unfold addRule
    rw [h1]
    simp
  · intro p
    unfold matchPat
    exact decide_eq_true_iff.mpr (show ([] : Str) <:+: p from List.nil_infix)

/-- Witness for C10: the line consisting of a bang and one space yields the
negated empty-pattern rule, which matches the concrete path x. -/
theorem c10_bare_bang_rule_witness :
    addRule [] ('!' :: [' ']) = [(true, [])] ∧ matchPat (s "x") [] = true :=
  ⟨(c10_bare_bang_rule [] [' '] (by decide)).1,
   (c10_bare_bang_rule [] [' '] (by decide)).2 (s "x")⟩

/-! ## Lemmas on the tree primitives -/

theorem find?_eq_none_iff {t : Tree} {q : Str} :
    find? t q = none ↔ ∀ e ∈ t, e.1 ≠ q := by
  induction t with
  | nil => exact ⟨fun _ e he => absurd he (List.not_mem_nil e), fun _ => rfl⟩
  | cons e t ih =>
    by_cases he : e.1 = q
    · simp only [find?, if_pos he]
      constructor
      · intro h; cases h
      · intro h; exact absurd he (h e (List.mem_cons_self _ _))
    · simp only [find?, if_neg he]
      rw [ih]
      constructor
      · intro h f hf
        rcases List.mem_cons.mp hf with rfl | hf2
        · exact he
        · exact h f hf2
      · intro h f hf
        exact h f (List.mem_cons_of_mem _ hf)

theorem find?_mem {t : Tree} {q : Str} {v : Entry} (h : find? t q = some v) :
    (q, v) ∈ t := by
  induction t with
  | nil => simp [find?] at h
  | cons e t ih =>
    by_cases he : e.1 = q
    · simp only [find?, if_pos he, Option.some.injEq] at h
      subst he
      subst h
      exact List.mem_cons_self _ _
    · simp only [find?, if_neg he] at h
      exact List.mem_cons_of_mem _ (ih h)

theorem find?_singleton {k q : Str} {v w : Entry} :
    find? [(k, v)] q = some w ↔ k = q ∧ v = w := by
  by_cases h : k = q
  · simp [find?, h, eq_comm]
  · simp [find?, h]

theorem isSome_find?_of_mem {t : Tree} {q : Str} {v : Entry} (h : (q, v) ∈ t) :
    (find? t q).isSome := by
  cases hf : find? t q with
  | some _ => rfl
  | none => exact absurd rfl (find?_eq_none_iff.mp hf (q, v) h)

theorem find?_of_mem_nodup {t : Tree} {q : Str} {v : Entry}
    (hn : NodupKeys t) (h : (q, v) ∈ t) : find? t q = some v := by
  induction t with
  | nil => simp at h
  | cons e t ih =>
    rcases List.mem_cons.mp h with h1 | h1
    · cases h1
      simp [find?]
    · have he : e.1 ≠ q := by
        intro hq
        have : q ∈ t.map Prod.fst := List.mem_map.mpr ⟨(q, v), h1, rfl⟩
        rw [← hq] at this
        exact (List.nodup_cons.mp hn).1 this
      simp only [find?, if_neg he]
      exact ih (List.nodup_cons.mp hn).2 h1

theorem mem_eraseP {t : Tree} {k : Str} {e : Str × Entry} :
    e ∈ eraseP t k ↔ e ∈ t ∧ e.1 ≠ k := by
  unfold eraseP
  rw [List.mem_filter]
  simp

theorem find?_eraseP_ne {t : Tree} {k q : Str} (h : q ≠ k) :
    find? (eraseP t k) q = find? t q := by
  induction t with
  | nil => rfl
  | cons e t ih =>
    by_cases he : e.1 = k
    · have h1 : eraseP (e :: t) k = eraseP t k := by
        simp [eraseP, List.filter_cons, he]
      have h2 : e.1 ≠ q := by rw [he]; exact fun hq => h hq.symm
      rw [h1, ih]
      simp [find?, h2]
    · have h1 : eraseP (e :: t) k = e :: eraseP t k := by
        simp [eraseP, List.filter_cons, he]
      rw [h1]
      by_cases hq : e.1 = q
      · simp [find?, hq]
      · simp only [find?, if_neg hq]
        exact ih

theorem find?_eraseP_self {t : Tree} {k : Str} : find? (eraseP t k) k = none := by
  rw [find?_eq_none_iff]
  intro e he
  exact (mem_eraseP.mp he).2

theorem find?_append_some {t u : Tree} {q : Str} {v : Entry}
    (h : find? t q = some v) : find? (t ++ u) q = some v := by
  induction t with
  | nil => simp [find?] at h
  | cons e t ih =>
    by_cases he : e.1 = q
    · simp_all [find?]
    · simp only [find?, if_neg he] at h
      simpa [find?, he] using ih h

theorem find?_append_none {t u : Tree} {q : Str} (h : find? t q = none) :
    find? (t ++ u) q = find? u q := by
  induction t with
  | nil => rfl
  | cons e t ih =>
    by_cases he : e.1 = q
    · simp [find?, he] at h
    · simp only [find?, if_neg he] at h
      simpa [find?, he] using ih h

theorem find?_insertP {t : Tree} {k q : Str} {v : Entry} :
    find? (insertP t k v) q = if q = k then some v else find? t q := by
  unfold insertP
  by_cases h : q = k
  · subst h
    rw [find?_append_none find?_eraseP_self, if_pos rfl]
    simp [find?]
  · rw [if_neg h]
    cases hf : find? t q with
    | some w => exact find?_append_some ((find?_eraseP_ne h).trans hf)
    | none =>
      rw [find?_append_none (by rw [find?_eraseP_ne h]; exact hf)]
      have hk : k ≠ q := fun hq => h hq.symm
      simp [find?, hk]

theorem mem_insertP {t : Tree} {k : Str} {v : Entry} {e : Str × Entry}
    (h : e ∈ insertP t k v) : e ∈ t ∨ e = (k, v) := by
  unfold insertP at h
  rcases List.mem_append.mp h with h1 | h1
  · exact Or.inl (mem_eraseP.mp h1).1
  · exact Or.inr (by simpa using h1)

/-! ## Lemmas on mkdirs -/

theorem mkdirs_find?_some :
    ∀ {ps : List Str} {t t' : Tree}, mkdirs ps t = Except.ok t' →
      ∀ {q : Str} {v : Entry}, find? t q = some v → find? t' q = some v := by
  intro ps
  induction ps with
  | nil => intro t t' h q v hf; cases h; exact hf
  | cons p ps ih =>
    intro t t' h q v hf
    unfold mkdirs at h
    cases hp : find? t p with
    | none =>
      rw [hp] at h
      exact ih h (find?_append_some hf)
    | some w =>
      cases w with
      | dir => rw [hp] at h; exact ih h hf
      | file m => rw [hp] at h; cases h

theorem mkdirs_find?_rev :
    ∀ {ps : List Str} {t t' : Tree}, mkdirs ps t = Except.ok t' →
      ∀ {q : Str} {v : Entry}, find? t' q = some v →
        find? t q = some v ∨ (v = Entry.dir ∧ q ∈ ps) := by
  intro ps
  induction ps with
  | nil => intro t t' h q v hf; cases h; exact Or.inl hf
  | cons p ps ih =>
    intro t t' h q v hf
    unfold mkdirs at h
    cases hp : find? t p with
    | none =>
      rw [hp] at h
      rcases ih h hf with h1 | h1
      · cases hf2 : find? t q with
        | some w =>
          rw [find?_append_some hf2] at h1
          injection h1 with h2
          exact Or.inl (by rw [h2])
        | none =>
          rw [find?_append_none hf2] at h1
          rcases find?_singleton.mp h1 with ⟨h3, h4⟩
          exact Or.inr ⟨h4.symm, by rw [← h3]; exact List.mem_cons_self p ps⟩
      · exact Or.inr ⟨h1.1, List.mem_cons_of_mem p h1.2⟩
    | some w =>
      cases w with
      | dir =>
        rw [hp] at h
        rcases ih h hf with h1 | h1
        · exact Or.inl h1
        · exact Or.inr ⟨h1.1, List.mem_cons_of_mem p h1.2⟩
      | file m => rw [hp] at h; cases h

theorem mkdirs_mem :
    ∀ {ps : List Str} {t t' : Tree}, mkdirs ps t = Except.ok t' →
      ∀ {e : Str × Entry}, e ∈ t' → e ∈ t ∨ (e.2 = Entry.dir ∧ e.1 ∈ ps) := by
  intro ps
  induction ps with
  | nil => intro t t' h e he; cases h; exact Or.inl he
  | cons p ps ih =>
    intro t t' h e he
    unfold mkdirs at h
    cases hp : find? t p with
    | none =>
      rw [hp] at h
      rcases ih h he with h1 | h1
      · rcases List.mem_append.mp h1 with h2 | h2
        · exact Or.inl h2
        · simp only [List.mem_singleton] at h2
          exact Or.inr ⟨by rw [h2], by rw [h2]; exact List.mem_cons_self p ps⟩
      · exact Or.inr ⟨h1.1, List.mem_cons_of_mem p h1.2⟩
    | some w =>
      cases w with
      | dir =>
        rw [hp] at h
        rcases ih h he with h1 | h1
        · exact Or.inl h1
        · exact Or.inr ⟨h1.1, List.mem_cons_of_mem p h1.2⟩
      | file m => rw [hp] at h; cases h

theorem mkdirs_post :
    ∀ {ps : List Str} {t t' : Tree}, mkdirs ps t = Except.ok t' →
      ∀ q ∈ ps, find? t' q = some Entry.dir := by
  intro ps
  induction ps with
  | nil => intro t t' _ q hq; simp at hq
  | cons p ps ih =>
    intro t t' h q hq
    unfold mkdirs at h
    rcases List.mem_cons.mp hq with rfl | hq2
    · cases hp : find? t q with
      | none =>
        rw [hp] at h
        refine mkdirs_find?_some h ?_
        rw [find?_append_none hp]
        simp [find?]
      | some w =>
        cases w with
        | dir => rw [hp] at h; exact mkdirs_find?_some h hp
        | file m => rw [hp] at h; cases h
    · cases hp : find? t p with
      | none => rw [hp] at h; exact ih h q hq2
      | some w =>
        cases w with
        | dir => rw [hp] at h; exact ih h q hq2
        | file m => rw [hp] at h; cases h

theorem mkdirs_id :
    ∀ {ps : List Str} {t : Tree}, (∀ q ∈ ps, find? t q = some Entry.dir) →
      mkdirs ps t = Except.ok t := by
  intro ps
  induction ps with
  | nil => intro t _; rfl
  | cons p ps ih =>
    intro t h
    unfold mkdirs
    rw [h p (List.mem_cons_self p ps)]
    exact ih fun q hq => h q (List.mem_cons_of_mem p hq)

/-! ## Claim C3 -/

/-- Claim C3: in the copy pass, a non-excluded source file whose copy
operation itself succeeds is copied exactly when the destination file is
absent, or its modification time differs from the source, or its size
differs; when size and modification time both agree the entry is skipped and
the destination tree is untouched; and after a copy the destination entry
carries the source size and source modification time. -/
theorem c3_copy_iff_stale (rs : List Rule) (ok : Str → Bool) (t : Tree)
    (rel : Str) (m : FileMeta)
    (hin : isIgnored rs rel = false) (hok : ok rel = true) :
    (∀ dm, find? t rel = some (Entry.file dm) → dm.mtime = m.mtime → dm.size = m.size →
      copyStep rs ok t rel (Entry.file m) = ([], t, false)) ∧
    (∀ t1, (find? t rel = none ∨
        ∃ dm, find? t rel = some (Entry.file dm) ∧ (dm.mtime ≠ m.mtime ∨ dm.size ≠ m.size)) →
      mkdirs (parentPrefixes rel) t = Except.ok t1 →
      copyStep rs ok t rel (Entry.file m)
        = ([Action.copy rel],
           insertP (insertP t1 rel (Entry.file m)) rel (Entry.file ⟨m.size, m.mtime⟩),
           false) ∧
      find? (copyStep rs ok t rel (Entry.file m)).2.1 rel
        = some (Entry.file ⟨m.size, m.mtime⟩)) := by
  constructor
  · intro dm hf hmt hsz
    unfold copyStep
    rw [hin]
    simp only [Bool.false_eq_true, if_false]
    have hst : stale t rel m = Except.ok false := by
      simp only [stale, hf]
      rw [hmt, hsz]
      simp
    rw [hst]
  · intro t1 hcond hmk
    have hst : stale t rel m = Except.ok true := by
      rcases hcond with h1 | ⟨dm, h1, h2⟩
      · simp only [stale, h1]
      · simp only [stale, h1]
        rcases h2 with h2 | h2
        · have hne : m.mtime ≠ dm.mtime := fun hh => h2 hh.symm
          simp [hne]
        · have hne : m.size ≠ dm.size := fun hh => h2 hh.symm
          simp [hne]
    have hres : copyStep rs ok t rel (Entry.file m)
        = ([Action.copy rel],
           insertP (insertP t1 rel (Entry.file m)) rel (Entry.file ⟨m.size, m.mtime⟩),
           false) := by
      unfold copyStep
      rw [hin]
      simp only [Bool.false_eq_true, if_false]
      rw [hst, hmk]
      unfold syncFile
      rw [hok]
      simp only [if_true]
      have : find? (insertP t1 rel (Entry.file m)) rel = some (Entry.file m) := by
        rw [find?_insertP, if_pos rfl]
      rw [this]
    refine ⟨hres, ?_⟩
    rw [hres]
    rw [find?_insertP, if_pos rfl]

/-- Witness for C3: with no rules, an always-succeeding copy, an empty
destination and source file f of size 1 and time 2, the copy branch fires and
the resulting entry carries the source time; with a destination already
holding an identical file, the entry is skipped. -/
theorem c3_copy_iff_stale_witness :
    (copyStep [] (fun _ => true) [] (s "f") (Entry.file ⟨1, 2⟩)
      = ([Action.copy (s "f")],
         insertP (insertP [] (s "f") (Entry.file ⟨1, 2⟩)) (s "f") (Entry.file ⟨1, 2⟩),
         false)) ∧
    (copyStep [] (fun _ => true) [(s "f", Entry.file ⟨1, 2⟩)] (s "f") (Entry.file ⟨1, 2⟩)
      = ([], [(s "f", Entry.file ⟨1, 2⟩)], false)) := by
  constructor
  · exact ((c3_copy_iff_stale [] (fun _ => true) [] (s "f") ⟨1, 2⟩ (by decide) rfl).2
      [] (Or.inl rfl) rfl).1
  · exact (c3_copy_iff_stale [] (fun _ => true) [(s "f", Entry.file ⟨1, 2⟩)] (s "f") ⟨1, 2⟩
      (by decide) rfl).1 ⟨1, 2⟩ (by decide) rfl rfl

/-! ## Claim C9 -/

/-- Claim C9: invoked with fewer than the two required directory arguments,
the program writes the usage message and exits with status one; when the
mirror run completes without an uncaught exception, the program writes the
completion message after the action log and exits with status zero. -/
theorem c9_usage_and_completion (args : List Str) (hrf : Bool) (lines : List Str)
    (src dst : Tree) (ok : Str → Bool) :
    (args.length < 2 → runMain args hrf lines src dst ok = (1, [Console.usageMsg])) ∧
    (2 ≤ args.length →
      (mirror (buildRules (if args.length = 3 && hrf then lines else [])) src dst ok).2.2
        = false →
      runMain args hrf lines src dst ok
        = (0, (mirror (buildRules (if args.length = 3 && hrf then lines
              else [])) src dst ok).1.map Console.act ++ [Console.finishedMsg])) := by
  constructor
  · intro h
    unfold runMain
    rw [if_pos h]
  · intro h2 hab
    unfold runMain
    rw [if_neg (Nat.not_lt.mpr h2)]
    simp only [hab, Bool.false_eq_true, if_false]

/-- Witness for C9: one argument yields the usage output with status one; two
arguments with a one-file source and empty destination complete with status
zero and the completion line last. -/
theorem c9_usage_and_completion_witness :
    runMain [s "a"] false [] [] [] (fun _ => true) = (1, [Console.usageMsg]) ∧
    runMain [s "a", s "b"] false [] [(s "f", Entry.file ⟨1, 2⟩)] [] (fun _ => true)
      = (0, [Console.act (Action.copy (s "f")), Console.finishedMsg]) := by
  constructor
  · exact (c9_usage_and_completion [s "a"] false [] [] [] (fun _ => true)).1 (by decide)
  · have h := (c9_usage_and_completion [s "a", s "b"] false []
      [(s "f", Entry.file ⟨1, 2⟩)] [] (fun _ => true)).2 (by decide) (by decide)
    rw [h]
    decide

/-! ## Lemmas on the descending string sort -/

theorem strLt_asymm : ∀ a b : Str, strLt a b = true → strLt b a = false
  | [], [] => by simp [strLt]
  | [], _ :: _ => by simp [strLt]
  | _ :: _, [] => by simp [strLt]
  | a :: as, b :: bs => by
    intro h
    by_cases hab : a < b
    · have hba : ¬ b < a := lt_asymm hab
      simp [strLt, hab, hba]
    · by_cases hba : b < a
      · simp [strLt, hab, hba] at h
      · have h2 := strLt_asymm as bs (by simpa [strLt, hab, hba] using h)
        simp [strLt, hab, hba, h2]

theorem strLt_trans : ∀ a b c : Str,
    strLt a b = true → strLt b c = true → strLt a c = true
  | [], [], _ => by intro h1 _; simp [strLt] at h1
  | [], _ :: _, [] => by intro _ h2; simp [strLt] at h2
  | [], _ :: _, _ :: _ => by intro _ _; rfl
  | _ :: _, [], _ => by intro h1 _; simp [strLt] at h1
  | _ :: _, _ :: _, [] => by intro _ h2; simp [strLt] at h2
  | a :: as, b :: bs, c :: cs => by
    intro h1 h2
    by_cases hab : a < b
    · by_cases hbc : b < c
      · simp [strLt, lt_trans hab hbc]
      · by_cases hcb : c < b
        · simp [strLt, hbc, hcb] at h2
        · have he : b = c := le_antisymm (not_lt.mp hcb) (not_lt.mp hbc)
          subst he
          simp [strLt, hab]
    · by_cases hba : b < a
      · simp [strLt, hab, hba] at h1
      · have he : a = b := le_antisymm (not_lt.mp hba) (not_lt.mp hab)
        subst he
        have h1t : strLt as bs = true := by simpa [strLt, hab, hba] using h1
        by_cases hac : a < c
        · simp [strLt, hac]
        · by_cases hca : c < a
          · simp [strLt, hac, hca] at h2
          · have h2t : strLt bs cs = true := by simpa [strLt, hac, hca] using h2
            simp [strLt, hac, hca, strLt_trans as bs cs h1t h2t]

theorem strLt_connex : ∀ a b : Str, strLt a b = false → strLt b a = false → a = b
  | [], [] => fun _ _ => rfl
  | [], _ :: _ => by intro h _; simp [strLt] at h
  | _ :: _, [] => by intro _ h; simp [strLt] at h
  | a :: as, b :: bs => by
    intro h1 h2
    by_cases hab : a < b
    · simp [strLt, hab] at h1
    · by_cases hba : b < a
      · simp [strLt, hba] at h2
      · have he : a = b := le_antisymm (not_lt.mp hba) (not_lt.mp hab)
        have ht : as = bs := strLt_connex as bs
          (by simpa [strLt, hab, hba] using h1)
          (by simpa [strLt, hab, hba, he] using h2)
        rw [he, ht]

theorem strLt_false_trans {a b c : Str}
    (h1 : strLt a b = false) (h2 : strLt b c = false) : strLt a c = false := by
  cases hac : strLt a c with
  | false => rfl
  | true =>
    cases hcb : strLt c b with
    | true =>
      have h3 := strLt_trans a c b hac hcb
      rw [h3] at h1
      cases h1
    | false =>
      have he : b = c := strLt_connex b c h2 hcb
      rw [he, hac] at h1
      cases h1

theorem mem_insertDesc (x z : Str) :
    ∀ l : List Str, z ∈ insertDesc x l ↔ z = x ∨ z ∈ l
  | [] => by simp [insertDesc]
  | y :: ys => by
    unfold insertDesc
    by_cases h : strLt x y = true
    · rw [if_pos h]
      rw [List.mem_cons, mem_insertDesc x z ys, List.mem_cons]
      tauto
    · rw [if_neg h]
      rw [List.mem_cons, List.mem_cons]

theorem pairwise_insertDesc {x : Str} :
    ∀ {l : List Str}, List.Pairwise (fun a b => strLt a b = false) l →
      List.Pairwise (fun a b => strLt a b = false) (insertDesc x l)
  | [], _ => by simp [insertDesc]
  | y :: ys, h => by
    rcases List.pairwise_cons.mp h with ⟨hy, hys⟩
    unfold insertDesc
    by_cases hxy : strLt x y = true
    · rw [if_pos hxy]
      refine List.pairwise_cons.mpr ⟨?_, pairwise_insertDesc hys⟩
      intro z hz
      rcases (mem_insertDesc x z ys).mp hz with rfl | hz2
      · exact strLt_asymm _ y hxy
      · exact hy z hz2
    · rw [if_neg hxy]
      refine List.pairwise_cons.mpr ⟨?_, h⟩
      intro z hz
      have hxyf : strLt x y = false := Bool.eq_false_iff.mpr hxy
      rcases List.mem_cons.mp hz with rfl | hz2
      · exact hxyf
      · exact strLt_false_trans hxyf (hy z hz2)

theorem pairwise_insSortDesc :
    ∀ l : List Str, List.Pairwise (fun a b => strLt a b = false) (insSortDesc l)
  | [] => List.Pairwise.nil
  | _x :: xs => pairwise_insertDesc (pairwise_insSortDesc xs)

theorem mem_insSortDesc (z : Str) : ∀ l : List Str, z ∈ insSortDesc l ↔ z ∈ l
  | [] => Iff.rfl
  | x :: xs => by
    show z ∈ insertDesc x (insSortDesc xs) ↔ _
    rw [mem_insertDesc x z (insSortDesc xs), mem_insSortDesc z xs, List.mem_cons]

theorem strLt_of_proper_prefix : ∀ p q : Str, p <+: q → p ≠ q → strLt p q = true
  | [], [] => fun _ h => absurd rfl h
  | [], _ :: _ => fun _ _ => rfl
  | _ :: _, [] => fun h _ => by
    rcases h with ⟨t, ht⟩
    exact absurd ht (List.cons_ne_nil _ _)
  | a :: as, b :: bs => fun h hne => by
    rcases h with ⟨t, ht⟩
    rw [List.cons_append] at ht
    injection ht with h1 h2
    subst h1
    subst h2
    have hr : strLt as (as ++ t) = true :=
      strLt_of_proper_prefix as (as ++ t) ⟨t, rfl⟩
        (fun he => hne (by rw [← he]))
    simp [strLt, lt_irrefl, hr]

/-! ## Claim C4 -/

/-- Claim C4 as stated, refuted at a concrete input: with the rule line
bang-a/x the matcher reports a/x as ignored but a as not ignored, the source
is empty, and the destination holds the directory a with the single child
a/x. The removal list is exactly the path a, yet a still has the child a/x in
the tree when its removal executes, so the removed directory is not empty:
the removal raises and the run aborts with the tree unchanged. -/
theorem c4_counterexample :
    insSortDesc (collectRemovals (buildRules [s "!a/x"]) []
        [(s "a", Entry.dir), (s "a/x", Entry.file ⟨1, 1⟩)]) = [s "a"] ∧
    hasChildIn [(s "a", Entry.dir), (s "a/x", Entry.file ⟨1, 1⟩)] (s "a") = true ∧
    mirror (buildRules [s "!a/x"]) []
        [(s "a", Entry.dir), (s "a/x", Entry.file ⟨1, 1⟩)] (fun _ => true)
      = ([], [(s "a", Entry.dir), (s "a/x", Entry.file ⟨1, 1⟩)], true) := by
  refine ⟨by decide, by decide, by decide⟩

/-- Claim C4 as amended: the removal list is sorted by descending
lexicographic path string before any deletion executes, so among the listed
paths every child entry is removed before its parent directory; a directory
whose children all reach the removal list is therefore empty when removed,
but a directory can still be non-empty at its removal when an exclusion rule
kept a child out of the list, as the counterexample shows. For the
destination-only subtree a/b/file.txt the deletion order is a/b/file.txt,
then a/b, then a. -/
theorem c4_removal_order_amended :
    (∀ l : List Str, List.Pairwise (fun a b => strLt a b = false) (insSortDesc l)) ∧
    (∀ (l : List Str) (p q : Str) (i j : Fin (insSortDesc l).length),
      (insSortDesc l).get i = p → (insSortDesc l).get j = q →
      p <+: q → p ≠ q → (j : Nat) < (i : Nat)) ∧
    mirror [] [] [(s "a", Entry.dir), (s "a/b", Entry.dir),
        (s "a/b/file.txt", Entry.file ⟨2, 7⟩)] (fun _ => true)
      = ([Action.delF (s "a/b/file.txt"), Action.delD (s "a/b"), Action.delD (s "a")],
         [], false) := by
  refine ⟨pairwise_insSortDesc, ?_, by decide⟩
  intro l p q i j hp hq hpre hne
  have hlt : strLt p q = true := strLt_of_proper_prefix p q hpre hne
  rcases Nat.lt_trichotomy (i : Nat) (j : Nat) with h | h | h
  · have h2 := (List.pairwise_iff_get.mp (pairwise_insSortDesc l)) i j h
    rw [hp, hq] at h2
    rw [h2] at hlt
    cases hlt
  · have : p = q := by
      rw [← hp, ← hq]
      congr 1
      exact Fin.ext h
    exact absurd this hne
  · exact h

/-- Witness for the amended C4 at a concrete input: sorting the two paths a
and a/b descending places the child a/b at position zero, before its parent a
at position one. -/
theorem c4_removal_order_amended_witness : (0 : Nat) < 1 :=
  c4_removal_order_amended.2.1 [s "a", s "a/b"] (s "a") (s "a/b")
    ⟨1, by decide⟩ ⟨0, by decide⟩ (by decide) (by decide) (by decide) (by decide)

/-! ## Lemmas on the removal collection and the deletion pass -/

theorem collect_acc (rs : List Rule) (src : Tree) :
    ∀ (dst : Tree) (acc : List Str),
      dst.foldl (collectStep rs src) acc = acc ++ collectRemovals rs src dst
  | [], acc => by simp [collectRemovals]
  | e :: dst, acc => by
    unfold collectRemovals
    rw [List.foldl_cons, List.foldl_cons, collect_acc rs src dst (collectStep rs src acc e),
      collect_acc rs src dst (collectStep rs src [] e), ← List.append_assoc]
    congr 1
    unfold collectStep
    split_ifs <;> simp

theorem mem_collect_of (rs : List Rule) (src : Tree) (dst : Tree) (e : Str × Entry)
    (he : e ∈ dst) (h1 : isIgnored rs e.1 = false) (h2 : find? src e.1 = none) :
    e.1 ∈ collectRemovals rs src dst := by
  induction dst with
  | nil => simp at he
  | cons f dst ih =>
    unfold collectRemovals
    rw [List.foldl_cons, collect_acc rs src dst (collectStep rs src [] f),
      List.mem_append]
    rcases List.mem_cons.mp he with rfl | he2
    · exact Or.inl (by simp [collectStep, h1, h2])
    · exact Or.inr (ih he2)

theorem collect_nil (rs : List Rule) (src : Tree) (dst : Tree)
    (h : ∀ e ∈ dst, isIgnored rs e.1 = true ∨ (find? src e.1).isSome = true) :
    collectRemovals rs src dst = [] := by
  induction dst with
  | nil => rfl
  | cons f dst ih =>
    unfold collectRemovals
    rw [List.foldl_cons, collect_acc rs src dst (collectStep rs src [] f)]
    have h1 : collectStep rs src [] f = [] := by
      unfold collectStep
      split_ifs with hig hsome
      · rfl
      · rfl
      · rcases h f (List.mem_cons_self _ _) with h2 | h2
        · exact absurd h2 hig
        · exact absurd h2 hsome
    rw [h1, List.nil_append]
    exact ih fun e he => h e (List.mem_cons_of_mem _ he)

theorem removeStep_mem {t : Tree} {p : Str} {e : Str × Entry}
    (hb : (removeStep t p).2.2 = false) (he : e ∈ (removeStep t p).2.1) :
    e ∈ t ∧ e.1 ≠ p := by
  unfold removeStep at hb he
  cases hf : find? t p with
  | none =>
    rw [hf] at he
    exact ⟨he, find?_eq_none_iff.mp hf e he⟩
  | some w =>
    cases w with
    | dir =>
      rw [hf] at hb he
      by_cases hc : hasChildIn t p = true
      · rw [if_pos hc] at hb
        cases hb
      · rw [if_neg hc] at he
        exact mem_eraseP.mp he
    | file m =>
      rw [hf] at he
      exact mem_eraseP.mp he

theorem delPass_mem (ps : List Str) :
    ∀ (t : Tree) (acts acts' : List Action) (t' : Tree),
      delPass ps t acts = (acts', t', false) → ∀ e ∈ t', e ∈ t ∧ e.1 ∉ ps := by
  induction ps with
  | nil =>
    intro t acts acts' t' h e he
    simp only [delPass, Prod.mk.injEq] at h
    obtain ⟨_, h2, _⟩ := h
    subst h2
    exact ⟨he, List.not_mem_nil _⟩
  | cons p ps ih =>
    intro t acts acts' t' h e he
    simp only [delPass] at h
    by_cases hb : (removeStep t p).2.2 = true
    · simp [hb] at h
    · have hb2 : (removeStep t p).2.2 = false := Bool.eq_false_iff.mpr hb
      rw [if_neg (by rw [hb2]; exact Bool.false_ne_true)] at h
      have h2 := ih (removeStep t p).2.1 _ acts' t' h e he
      have h3 := removeStep_mem hb2 h2.1
      refine ⟨h3.1, ?_⟩
      intro hmem
      rcases List.mem_cons.mp hmem with rfl | hmem2
      · exact h3.2 rfl
      · exact h2.2 hmem2

/-! ## Miscellaneous helper lemmas for the idempotence argument -/

theorem self_mem_dirPrefixes (p : Str) : p ∈ dirPrefixes p :=
  List.mem_append.mpr (Or.inr (List.mem_singleton.mpr rfl))

theorem mem_parentPrefixes {p q : Str} (h : q ∈ parentPrefixes p) :
    q ∈ dirPrefixes p ∧ q ≠ p := by
  refine ⟨List.mem_of_mem_dropLast h, ?_⟩
  unfold parentPrefixes dirPrefixes at h
  rw [List.dropLast_concat] at h
  rcases List.mem_filterMap.mp h with ⟨i, hi, hq⟩
  by_cases hc : p.get? i = some '/'
  · rw [if_pos hc] at hq
    injection hq with hq
    subst hq
    intro he
    have h1 : i < p.length := List.mem_range.mp hi
    have h2 := congrArg List.length he
    rw [List.length_take] at h2
    omega
  · rw [if_neg hc] at hq
    cases hq

theorem mem_unique_nodup {t : Tree} (hn : NodupKeys t) {q : Str} {v w : Entry}
    (h1 : (q, v) ∈ t) (h2 : (q, w) ∈ t) : v = w := by
  have e1 := find?_of_mem_nodup hn h1
  have e2 := find?_of_mem_nodup hn h2
  rw [e1] at e2
  exact Option.some.inj e2

theorem file_key_conflict {src : Tree} (hns : NodupKeys src) (hclo : AncestorClosed src)
    {e : Str × Entry} (hesrc : e ∈ src) {q : Str} (hq : q ∈ dirPrefixes e.1)
    (hne : q ≠ e.1) {m : FileMeta} (hmem : (q, Entry.file m) ∈ src) : False := by
  rcases hclo e hesrc q hq with h | h
  · exact hne h
  · exact Entry.noConfusion (mem_unique_nodup hns h hmem)

theorem stale_false_elim {t : Tree} {rel : Str} {m : FileMeta}
    (h : stale t rel m = Except.ok false) :
    find? t rel = some (Entry.file ⟨m.size, m.mtime⟩) := by
  unfold stale at h
  cases hf : find? t rel with
  | none => rw [hf] at h; cases h
  | some w =>
    cases w with
    | dir =>
      rw [hf] at h
      by_cases hc : m.mtime ≠ 0
      · rw [if_pos hc] at h; cases h
      · rw [if_neg hc] at h; cases h
    | file dm =>
      rw [hf] at h
      injection h with h2
      rw [Bool.or_eq_false_iff] at h2
      have hmt : m.mtime = dm.mtime := not_not.mp (of_decide_eq_false h2.1)
      have hsz : m.size = dm.size := not_not.mp (of_decide_eq_false h2.2)
      rw [hmt, hsz]

theorem stale_matched {t : Tree} {rel : Str} {m : FileMeta}
    (h : find? t rel = some (Entry.file ⟨m.size, m.mtime⟩)) :
    stale t rel m = Except.ok false := by
  simp only [stale, h]
  simp

/-- Case analysis of one copy pass iteration whose copy operations succeed
and which does not raise: the entry is ignored, or a directory whose chain of
directories is ensured, or a file that is up to date, or a file that is
copied and then stamped with the source modification time. -/
theorem copyStep_cases (rs : List Rule) (t : Tree) (rel : Str) (ent : Entry)
    (hab : (copyStep rs (fun _ => true) t rel ent).2.2 = false) :
    (isIgnored rs rel = true ∧ copyStep rs (fun _ => true) t rel ent = ([], t, false)) ∨
    (isIgnored rs rel = false ∧ ent = Entry.dir ∧ ∃ t1,
      mkdirs (dirPrefixes rel) t = Except.ok t1 ∧
      copyStep rs (fun _ => true) t rel ent = ([], t1, false)) ∨
    (isIgnored rs rel = false ∧ ∃ m, ent = Entry.file m ∧
      find? t rel = some (Entry.file ⟨m.size, m.mtime⟩) ∧
      copyStep rs (fun _ => true) t rel ent = ([], t, false)) ∨
    (isIgnored rs rel = false ∧ ∃ m t1, ent = Entry.file m ∧
      mkdirs (parentPrefixes rel) t = Except.ok t1 ∧
      copyStep rs (fun _ => true) t rel ent
        = ([Action.copy rel],
           insertP (insertP t1 rel (Entry.file m)) rel (Entry.file ⟨m.size, m.mtime⟩),
           false)) := by
  by_cases hig : isIgnored rs rel = true
  · exact Or.inl ⟨hig, by simp [copyStep, hig]⟩
  · have hig2 : isIgnored rs rel = false := Bool.eq_false_iff.mpr hig
    cases ent with
    | dir =>
      cases hmk : mkdirs (dirPrefixes rel) t with
      | error u =>
        exfalso
        have h1 : copyStep rs (fun _ => true) t rel Entry.dir = ([], t, true) := by
          simp [copyStep, hig2, hmk]
        rw [h1] at hab
        cases hab
      | ok t1 =>
        refine Or.inr (Or.inl ⟨hig2, rfl, t1, rfl, ?_⟩)
        simp [copyStep, hig2, hmk]
    | file m =>
      cases hst : stale t rel m with
      | error u =>
        exfalso
        have h1 : copyStep rs (fun _ => true) t rel (Entry.file m) = ([], t, true) := by
          simp [copyStep, hig2, hst]
        rw [h1] at hab
        cases hab
      | ok b =>
        cases b with
        | false =>
          refine Or.inr (Or.inr (Or.inl ⟨hig2, m, rfl, stale_false_elim hst, ?_⟩))
          simp [copyStep, hig2, hst]
        | true =>
          cases hmk : mkdirs (parentPrefixes rel) t with
          | error u =>
            exfalso
            have h1 : copyStep rs (fun _ => true) t rel (Entry.file m) = ([], t, true) := by
              simp [copyStep, hig2, hst, hmk]
            rw [h1] at hab
            cases hab
          | ok t1 =>
            refine Or.inr (Or.inr (Or.inr ⟨hig2, m, t1, rfl, rfl, ?_⟩))
            have hfind : find? (insertP t1 rel (Entry.file m)) rel
                = some (Entry.file m) := by
              rw [find?_insertP, if_pos rfl]
            simp [copyStep, hig2, hst, hmk, syncFile, hfind]

/-- Postconditions of a complete, non-raising copy pass whose copy operations
all succeed, run over a key-distinct sub-list of an ancestor-closed source:
every non-ignored source file ends with the source size and source
modification time at its path; every directory in the chain of a non-ignored
source directory exists; every surviving entry was present before or sits at
a path inside some source chain; and entries at paths that are not source
file paths are preserved. -/
theorem copyPass_run1 (rs : List Rule) (src : Tree)
    (hns : NodupKeys src) (hclo : AncestorClosed src) :
    ∀ (l : List (Str × Entry)) (t : Tree) (acts : List Action),
      (l.map Prod.fst).Nodup →
      (∀ e ∈ l, e ∈ src) →
      (∀ rel m, (rel, Entry.file m) ∈ l → find? t rel ≠ some Entry.dir) →
      (copyPass rs (fun _ => true) l t acts).2.2 = false →
      (∀ rel m, (rel, Entry.file m) ∈ l → isIgnored rs rel = false →
        find? (copyPass rs (fun _ => true) l t acts).2.1 rel
          = some (Entry.file ⟨m.size, m.mtime⟩)) ∧
      (∀ rel, (rel, Entry.dir) ∈ l → isIgnored rs rel = false →
        ∀ q ∈ dirPrefixes rel,
          find? (copyPass rs (fun _ => true) l t acts).2.1 q = some Entry.dir) ∧
      (∀ e ∈ (copyPass rs (fun _ => true) l t acts).2.1,
        e ∈ t ∨ ∃ e2 ∈ src, e.1 ∈ dirPrefixes e2.1) ∧
      (∀ q v, find? t q = some v → (∀ m, (q, Entry.file m) ∉ l) →
        find? (copyPass rs (fun _ => true) l t acts).2.1 q = some v) := by
  intro l
  induction l with
  | nil =>
    intro t acts _ _ _ _
    refine ⟨?_, ?_, ?_, ?_⟩
    · intro rel m h
      simp at h
    · intro rel h
      simp at h
    · intro e he
      exact Or.inl he
    · intro q v h _
      exact h
  | cons e es ih =>
    intro t acts hnd hsub hdf hab
    rw [List.map_cons] at hnd
    have hnotin : e.1 ∉ es.map Prod.fst := (List.nodup_cons.mp hnd).1
    have hndtail : (es.map Prod.fst).Nodup := (List.nodup_cons.mp hnd).2
    have hsubtail : ∀ f ∈ es, f ∈ src := fun f hf => hsub f (List.mem_cons_of_mem _ hf)
    have hesrc : e ∈ src := hsub e (List.mem_cons_self _ _)
    have hstep_ab : (copyStep rs (fun _ => true) t e.1 e.2).2.2 = false := by
      cases hb : (copyStep rs (fun _ => true) t e.1 e.2).2.2 with
      | false => rfl
      | true => simp [copyPass, hb] at hab
    rcases copyStep_cases rs t e.1 e.2 hstep_ab with
      ⟨hig, hres⟩ | ⟨hig, hdir, t1, hmk, hres⟩ | ⟨hig, m, hfile, hfound, hres⟩ |
      ⟨hig, m, t1, hfile, hmk, hres⟩
    · -- ignored entry: the tree is unchanged
      have hrec : copyPass rs (fun _ => true) (e :: es) t acts
          = copyPass rs (fun _ => true) es t (acts ++ []) := by
        simp [copyPass, hres]
      rw [hrec] at hab ⊢
      have ihres := ih t (acts ++ []) hndtail hsubtail
        (fun rel m hm => hdf rel m (List.mem_cons_of_mem _ hm)) hab
      refine ⟨?_, ?_, ihres.2.2.1, ?_⟩
      · intro rel m hm hig2
        rcases List.mem_cons.mp hm with heq | hm2
        · exfalso
          rw [← heq] at hig
          simp at hig
          rw [hig] at hig2
          cases hig2
        · exact ihres.1 rel m hm2 hig2
      · intro rel hm hig2 q hq
        rcases List.mem_cons.mp hm with heq | hm2
        · exfalso
          rw [← heq] at hig
          simp at hig
          rw [hig] at hig2
          cases hig2
        · exact ihres.2.1 rel hm2 hig2 q hq
      · intro q v hf hno
        exact ihres.2.2.2 q v hf fun m hm => hno m (List.mem_cons_of_mem _ hm)
    · -- directory entry: the chain of directories is ensured
      have hrec : copyPass rs (fun _ => true) (e :: es) t acts
          = copyPass rs (fun _ => true) es t1 (acts ++ []) := by
        simp [copyPass, hres]
      rw [hrec] at hab ⊢
      have hdf1 : ∀ rel m, (rel, Entry.file m) ∈ es → find? t1 rel ≠ some Entry.dir := by
        intro rel m hm hfd
        rcases mkdirs_find?_rev hmk hfd with h1 | h1
        · exact hdf rel m (List.mem_cons_of_mem _ hm) h1
        · by_cases hre : rel = e.1
          · exact hnotin (hre ▸ List.mem_map.mpr ⟨(rel, Entry.file m), hm, rfl⟩)
          · exact file_key_conflict hns hclo hesrc h1.2 hre (hsubtail _ hm)
      have ihres := ih t1 (acts ++ []) hndtail hsubtail hdf1 hab
      have hnofile : ∀ q, q ∈ dirPrefixes e.1 → ∀ m, (q, Entry.file m) ∉ es := by
        intro q hq m hm
        by_cases hqe : q = e.1
        · exact hnotin (hqe ▸ List.mem_map.mpr ⟨(q, Entry.file m), hm, rfl⟩)
        · exact file_key_conflict hns hclo hesrc hq hqe (hsubtail _ hm)
      have hcarry : ∀ q ∈ dirPrefixes e.1,
          find? (copyPass rs (fun _ => true) es t1 (acts ++ [])).2.1 q
            = some Entry.dir := by
        intro q hq
        exact ihres.2.2.2 q Entry.dir (mkdirs_post hmk q hq) (hnofile q hq)
      refine ⟨?_, ?_, ?_, ?_⟩
      · intro rel m hm hig2
        rcases List.mem_cons.mp hm with heq | hm2
        · exfalso
          have h2 : e.2 = Entry.file m := by rw [← heq]
          rw [hdir] at h2
          cases h2
        · exact ihres.1 rel m hm2 hig2
      · intro rel hm hig2 q hq
        rcases List.mem_cons.mp hm with heq | hm2
        · have h1 : rel = e.1 := by rw [← heq]
          rw [h1] at hq
          exact hcarry q hq
        · exact ihres.2.1 rel hm2 hig2 q hq
      · intro f hf
        rcases ihres.2.2.1 f hf with h1 | h1
        · rcases mkdirs_mem hmk h1 with h2 | h2
          · exact Or.inl h2
          · exact Or.inr ⟨e, hesrc, h2.2⟩
        · exact Or.inr h1
      · intro q v hf hno
        exact ihres.2.2.2 q v (mkdirs_find?_some hmk hf)
          fun m hm => hno m (List.mem_cons_of_mem _ hm)
    · -- up-to-date file: the tree is unchanged
      have hrec : copyPass rs (fun _ => true) (e :: es) t acts
          = copyPass rs (fun _ => true) es t (acts ++ []) := by
        simp [copyPass, hres]
      rw [hrec] at hab ⊢
      have ihres := ih t (acts ++ []) hndtail hsubtail
        (fun rel m hm => hdf rel m (List.mem_cons_of_mem _ hm)) hab
      refine ⟨?_, ?_, ihres.2.2.1, ?_⟩
      · intro rel m2 hm hig2
        rcases List.mem_cons.mp hm with heq | hm2
        · have h1 : rel = e.1 := by rw [← heq]
          have h2 : Entry.file m2 = Entry.file m := by
            have h3 : e.2 = Entry.file m2 := by rw [← heq]
            rw [hfile] at h3
            exact h3.symm
          injection h2 with h2
          subst h2
          refine ihres.2.2.2 rel (Entry.file ⟨m2.size, m2.mtime⟩) (h1 ▸ hfound) ?_
          intro m3 hm3
          exact hnotin (h1 ▸ List.mem_map.mpr ⟨(rel, Entry.file m3), hm3, rfl⟩)
        · exact ihres.1 rel m2 hm2 hig2
      · intro rel hm hig2 q hq
        rcases List.mem_cons.mp hm with heq | hm2
        · exfalso
          have h2 : e.2 = Entry.dir := by rw [← heq]
          rw [hfile] at h2
          cases h2
        · exact ihres.2.1 rel hm2 hig2 q hq
      · intro q v hf hno
        exact ihres.2.2.2 q v hf fun m2 hm => hno m2 (List.mem_cons_of_mem _ hm)
    · -- stale file: copied and stamped with the source modification time
      have hrec : copyPass rs (fun _ => true) (e :: es) t acts
          = copyPass rs (fun _ => true) es
              (insertP (insertP t1 e.1 (Entry.file m)) e.1
                (Entry.file ⟨m.size, m.mtime⟩))
              (acts ++ [Action.copy e.1]) := by
        simp [copyPass, hres]
      rw [hrec] at hab ⊢
      have hfind_new : ∀ q, q ≠ e.1 →
          find? (insertP (insertP t1 e.1 (Entry.file m)) e.1
            (Entry.file ⟨m.size, m.mtime⟩)) q = find? t1 q := by
        intro q hqe
        rw [find?_insertP, if_neg hqe, find?_insertP, if_neg hqe]
      have hdf1 : ∀ rel m2, (rel, Entry.file m2) ∈ es →
          find? (insertP (insertP t1 e.1 (Entry.file m)) e.1
            (Entry.file ⟨m.size, m.mtime⟩)) rel ≠ some Entry.dir := by
        intro rel m2 hm hfd
        have hre : rel ≠ e.1 := by
          intro h1
          exact hnotin (h1 ▸ List.mem_map.mpr ⟨(rel, Entry.file m2), hm, rfl⟩)
        rw [hfind_new rel hre] at hfd
        rcases mkdirs_find?_rev hmk hfd with h1 | h1
        · exact hdf rel m2 (List.mem_cons_of_mem _ hm) h1
        · exact file_key_conflict hns hclo hesrc (mem_parentPrefixes h1.2).1 hre
            (hsubtail _ hm)
      have ihres := ih (insertP (insertP t1 e.1 (Entry.file m)) e.1
          (Entry.file ⟨m.size, m.mtime⟩)) (acts ++ [Action.copy e.1])
        hndtail hsubtail hdf1 hab
      refine ⟨?_, ?_, ?_, ?_⟩
      · intro rel m2 hm hig2
        rcases List.mem_cons.mp hm with heq | hm2
        · have h1 : rel = e.1 := by rw [← heq]
          have h2 : Entry.file m2 = Entry.file m := by
            have h3 : e.2 = Entry.file m2 := by rw [← heq]
            rw [hfile] at h3
            exact h3.symm
          injection h2 with h2
          subst h2
          have hset : find? (insertP (insertP t1 e.1 (Entry.file m2)) e.1
              (Entry.file ⟨m2.size, m2.mtime⟩)) rel
              = some (Entry.file ⟨m2.size, m2.mtime⟩) := by
            rw [find?_insertP, if_pos h1]
          refine ihres.2.2.2 rel (Entry.file ⟨m2.size, m2.mtime⟩) hset ?_
          intro m3 hm3
          exact hnotin (h1 ▸ List.mem_map.mpr ⟨(rel, Entry.file m3), hm3, rfl⟩)
        · exact ihres.1 rel m2 hm2 hig2
      · intro rel hm hig2 q hq
        rcases List.mem_cons.mp hm with heq | hm2
        · exfalso
          have h2 : e.2 = Entry.dir := by rw [← heq]
          rw [hfile] at h2
          cases h2
        · exact ihres.2.1 rel hm2 hig2 q hq
      · intro f hf
        rcases ihres.2.2.1 f hf with h1 | h1
        · rcases mem_insertP h1 with h2 | h2
          · rcases mem_insertP h2 with h3 | h3
            · rcases mkdirs_mem hmk h3 with h4 | h4
              · exact Or.inl h4
              · exact Or.inr ⟨e, hesrc, (mem_parentPrefixes h4.2).1⟩
            · exact Or.inr ⟨e, hesrc, by rw [h3]; exact self_mem_dirPrefixes e.1⟩
          · exact Or.inr ⟨e, hesrc, by rw [h2]; exact self_mem_dirPrefixes e.1⟩
        · exact Or.inr h1
      · intro q v hf hno
        have hqe : q ≠ e.1 := by
          intro h1
          have h3 : e.2 = Entry.file m := hfile
          exact hno m (by rw [h1, ← h3]; exact List.mem_cons_self _ _)
        have h4 : find? t1 q = some v := mkdirs_find?_some hmk hf
        have h5 : find? (insertP (insertP t1 e.1 (Entry.file m)) e.1
            (Entry.file ⟨m.size, m.mtime⟩)) q = some v := by
          rw [hfind_new q hqe]
          exact h4
        exact ihres.2.2.2 q v h5 fun m2 hm => hno m2 (List.mem_cons_of_mem _ hm)

/-- A copy pass over a tree that already matches the source on every
non-ignored file and directory chain changes nothing and emits nothing. -/
theorem copyPass_run2 (rs : List Rule) (src : Tree) :
    ∀ (l : List (Str × Entry)) (t : Tree) (acts : List Action),
      (∀ e ∈ l, e ∈ src) →
      (∀ rel m, (rel, Entry.file m) ∈ src → isIgnored rs rel = false →
        find? t rel = some (Entry.file ⟨m.size, m.mtime⟩)) →
      (∀ rel, (rel, Entry.dir) ∈ src → isIgnored rs rel = false →
        ∀ q ∈ dirPrefixes rel, find? t q = some Entry.dir) →
      copyPass rs (fun _ => true) l t acts = (acts, t, false) := by
  intro l
  induction l with
  | nil =>
    intro t acts _ _ _
    rfl
  | cons e es ih =>
    intro t acts hsub hfiles hdirs
    have hsubtail : ∀ f ∈ es, f ∈ src := fun f hf => hsub f (List.mem_cons_of_mem _ hf)
    have hesrc : e ∈ src := hsub e (List.mem_cons_self _ _)
    have hstep : copyStep rs (fun _ => true) t e.1 e.2 = ([], t, false) := by
      by_cases hig : isIgnored rs e.1 = true
      · simp [copyStep, hig]
      · have hig2 : isIgnored rs e.1 = false := Bool.eq_false_iff.mpr hig
        cases he2 : e.2 with
        | dir =>
          have hd : (e.1, Entry.dir) ∈ src := by
            rw [← he2]
            exact hesrc
          have hmk : mkdirs (dirPrefixes e.1) t = Except.ok t :=
            mkdirs_id (hdirs e.1 hd hig2)
          simp [copyStep, hig2, hmk]
        | file m =>
          have hfm : (e.1, Entry.file m) ∈ src := by
            rw [← he2]
            exact hesrc
          have hst : stale t e.1 m = Except.ok false :=
            stale_matched (hfiles e.1 m hfm hig2)
          simp [copyStep, hig2, hst]
    have hrec : copyPass rs (fun _ => true) (e :: es) t acts
        = copyPass rs (fun _ => true) es t acts := by
      simp [copyPass, hstep]
    rw [hrec]
    exact ih t acts hsubtail hfiles hdirs

/-- Unfolding equation of mirror: deletion pass on the sorted removal list,
then the copy pass when no removal raised. -/
theorem mirror_eq (rs : List Rule) (src dst : Tree) (ok : Str → Bool) :
    mirror rs src dst ok
      = if (delPass (insSortDesc (collectRemovals rs src dst)) dst []).2.2
        then delPass (insSortDesc (collectRemovals rs src dst)) dst []
        else copyPass rs ok src
          (delPass (insSortDesc (collectRemovals rs src dst)) dst []).2.1
          (delPass (insSortDesc (collectRemovals rs src dst)) dst []).1 := rfl

/-! ## Claim C7 -/

/-- Claim C7: on well-formed trees (distinct keys, every ancestor of a source
path recorded as a source directory, no source file sitting at a destination
directory path), if the first mirror run finishes without an uncaught
exception and with every copy succeeding, then a second mirror run over the
resulting destination emits no action at all: no COPY line, no DEL line, and
no ERROR line. -/
theorem c7_idempotent (rs : List Rule) (src dst : Tree)
    (hns : NodupKeys src) (hnd : NodupKeys dst) (hclo : AncestorClosed src)
    (hkind : ∀ e ∈ src, find? dst e.1 = some Entry.dir → e.2 = Entry.dir)
    (hab : (mirror rs src dst (fun _ => true)).2.2 = false) :
    (mirror rs src ((mirror rs src dst (fun _ => true)).2.1) (fun _ => true)).1
      = [] := by
  rw [mirror_eq rs src dst (fun _ => true)] at hab ⊢
  by_cases hb1 : (delPass (insSortDesc (collectRemovals rs src dst)) dst []).2.2 = true
  · rw [if_pos hb1] at hab
    rw [hb1] at hab
    cases hab
  · rw [if_neg hb1] at hab ⊢
    have hb1f : (delPass (insSortDesc (collectRemovals rs src dst)) dst []).2.2 = false :=
      Bool.eq_false_iff.mpr hb1
    set rl := insSortDesc (collectRemovals rs src dst) with hrl
    set dp := delPass rl dst [] with hdp
    have hdpeq : delPass rl dst [] = (dp.1, dp.2.1, false) := by
      rw [← hdp, ← hb1f]
    have hmem_mid : ∀ e ∈ dp.2.1, e ∈ dst ∧ e.1 ∉ rl :=
      delPass_mem rl dst [] dp.1 dp.2.1 hdpeq
    have hdf : ∀ rel m, (rel, Entry.file m) ∈ src →
        find? dp.2.1 rel ≠ some Entry.dir := by
      intro rel m hm hfd
      have h1 := hmem_mid (rel, Entry.dir) (find?_mem hfd)
      have h2 := find?_of_mem_nodup hnd h1.1
      have h3 := hkind (rel, Entry.file m) hm h2
      cases h3
    have hrun1 := copyPass_run1 rs src hns hclo src dp.2.1 dp.1 hns
      (fun e he => he) hdf hab
    set d1 := (copyPass rs (fun _ => true) src dp.2.1 dp.1).2.1 with hd1
    have hP3 : ∀ e ∈ d1, isIgnored rs e.1 = true ∨ (find? src e.1).isSome = true := by
      intro e he
      by_cases hig : isIgnored rs e.1 = true
      · exact Or.inl hig
      · have hig2 : isIgnored rs e.1 = false := Bool.eq_false_iff.mpr hig
        rcases hrun1.2.2.1 e he with h1 | h1
        · have h2 := hmem_mid e h1
          cases hf : find? src e.1 with
          | some w =>
            exact Or.inr rfl
          | none =>
            exfalso
            apply h2.2
            rw [hrl, mem_insSortDesc]
            exact mem_collect_of rs src dst e h2.1 hig2 hf
        · rcases h1 with ⟨e2, he2, hpref⟩
          rcases hclo e2 he2 e.1 hpref with h3 | h3
          · refine Or.inr ?_
            rw [h3]
            exact isSome_find?_of_mem (show (e2.1, e2.2) ∈ src from he2)
          · exact Or.inr (isSome_find?_of_mem h3)
    have hcol2 : collectRemovals rs src d1 = [] := collect_nil rs src d1 hP3
    have hmir2 : mirror rs src d1 (fun _ => true)
        = copyPass rs (fun _ => true) src d1 [] := by
      simp [mirror, hcol2, insSortDesc, delPass]
    have hrun2 := copyPass_run2 rs src src d1 [] (fun e he => he)
      hrun1.1 hrun1.2.1
    rw [hmir2, hrun2]

/-- Witness for C7 at a concrete input: mirroring the one-file source onto an
empty destination succeeds, and the second run emits nothing. -/
theorem c7_idempotent_witness :
    (mirror [] [(s "a", Entry.file ⟨1, 2⟩)]
      ((mirror [] [(s "a", Entry.file ⟨1, 2⟩)] [] (fun _ => true)).2.1)
      (fun _ => true)).1 = [] :=
  c7_idempotent [] [(s "a", Entry.file ⟨1, 2⟩)] [] (by decide) (by decide)
    (by decide) (by decide) (by decide)

end SyncOne
